import Mathlib

/-!
Verification of the flatten-and-serialize core of `json_to_csv_converter.py`
(class `JsonToCsvConverter`): the JSON flattener `flatten_json`, the
normalization and key-ordering logic of `json_to_csv`, and the chunked CSV
writer `_write_split_csv`, together with the CSV quote-all serialization the
code requests from the standard CSV writer (`quoting=csv.QUOTE_ALL`).

Python's in-memory JSON values are modelled by the inductive type `Json`;
Python `dict`s holding flattened records are modelled as association lists in
insertion order with Python's `dict` update semantics (`dictInsert`); the
file system is modelled by an oracle `fs : String → Option String` saying
whether opening a given path raises (and with what message), so that the
`try/except` blocks of the source become explicit `Except` plumbing.
Numbers are modelled as integers (the claims under study never depend on
float formatting).
-/

namespace JsonToCsv

/-- Model of a parsed JSON value as handed to the converter
(`json.load` output): dict, list, or scalar (str / number / bool / None). -/
inductive Json where
  | null : Json
  | bool : Bool → Json
  | num : Int → Json
  | str : String → Json
  | arr : List Json → Json
  | obj : List (String × Json) → Json

/-- The test `isinstance(value, (dict, list))` that `flatten_json` uses to decide
whether to recurse. -/
def Json.isContainer : Json → Bool
  | .obj _ => true
  | .arr _ => true
  | _ => false

/-- A scalar is anything that is not a dict or list. -/
def Json.isScalar (j : Json) : Bool := !j.isContainer

/-- The test `isinstance(value, dict)`. -/
def Json.isObj : Json → Bool
  | .obj _ => true
  | _ => false

/-- The test `isinstance(value, list)`. -/
def Json.isArr : Json → Bool
  | .arr _ => true
  | _ => false

/-- A flattened record: a Python `dict` from composite string keys to scalar
values, modelled as an association list in insertion order. -/
abbrev FlatRecord := List (String × Json)

/-- One step of Python `dict` insertion: if the key is already present, the
value is updated in place (the key keeps its original position); otherwise
the pair is appended at the end. -/
def dictInsert (d : FlatRecord) (k : String) (v : Json) : FlatRecord :=
  if d.any (fun p => p.1 = k) then
    d.map (fun p => if p.1 = k then (k, v) else p)
  else
    d ++ [(k, v)]

/-- Insert every pair of `xs` into `d` in order — Python `dict.update`
semantics, and the "merge the entries into the result" step of the spec. -/
def mergeRecord (d : FlatRecord) (xs : List (String × Json)) : FlatRecord :=
  xs.foldl (fun a p => dictInsert a p.1 p.2) d

/-- Python `dict(items)`: build a dict from a pair list, later duplicates
overwriting earlier ones (keeping the first position). -/
def dictOf (xs : List (String × Json)) : FlatRecord :=
  mergeRecord [] xs

mutual

/-- Source function `JsonToCsvConverter.flatten_json(data, parent_key, sep)`:
collects `items` across the children (extending with the recursive result's
`.items()` for nested dicts/lists) and returns `dict(items)`; a scalar at the
top returns `{parent_key: data}` when `parent_key` is non-empty (truthy) and
`{}` otherwise. -/
def flatten_json (data : Json) (parent_key : String) (sep : String) : FlatRecord :=
  match data with
  | .obj pairs => dictOf (flattenPairs pairs parent_key sep)
  | .arr elems => dictOf (flattenElems elems 0 parent_key sep)
  | j => if parent_key.isEmpty then [] else [(parent_key, j)]
termination_by sizeOf data

/-- The `for key, value in data.items()` loop of `flatten_json`: the flat
`items` list accumulated over a dict's pairs. -/
def flattenPairs (pairs : List (String × Json)) (parent_key : String) (sep : String) :
    List (String × Json) :=
  match pairs with
  | [] => []
  | (key, value) :: rest =>
      let new_key := if parent_key.isEmpty then key else parent_key ++ sep ++ key
      (if value.isContainer then flatten_json value new_key sep else [(new_key, value)])
        ++ flattenPairs rest parent_key sep
termination_by sizeOf pairs

/-- The `for i, value in enumerate(data)` loop of `flatten_json`: the flat
`items` list accumulated over a list's elements, `i` being the running index. -/
def flattenElems (elems : List Json) (i : Nat) (parent_key : String) (sep : String) :
    List (String × Json) :=
  match elems with
  | [] => []
  | value :: rest =>
      let new_key := if parent_key.isEmpty then toString i else parent_key ++ sep ++ toString i
      (if value.isContainer then flatten_json value new_key sep else [(new_key, value)])
        ++ flattenElems rest (i + 1) parent_key sep
termination_by sizeOf elems

end

/-- Sanity example from the spec: nested object flattening. -/
theorem flatten_example_nested :
    flatten_json (.obj [("name", .str "John"),
      ("address", .obj [("city", .str "NY"), ("zip", .str "10001")])]) "" "_"
    = [("name", .str "John"), ("address_city", .str "NY"), ("address_zip", .str "10001")] := by
  simp only [flatten_json, flattenPairs, flattenElems]
  rfl

/-- Sanity example from the spec: array flattening with index keys. -/
theorem flatten_example_array :
    flatten_json (.obj [("tags", .arr [.str "a", .str "b"])]) "" "_"
    = [("tags_0", .str "a"), ("tags_1", .str "b")] := by
  simp only [flatten_json, flattenPairs, flattenElems]
  rfl

mutual

/-- The reference recursive definition of the spec (§4.1), written from the
spec's words: the result record is built incrementally; for each key-value
pair of an object (in iteration order), `childKey` is the key itself when
`pathPrefix` is empty and `pathPrefix ++ separator ++ key` otherwise; a
nested object/array recurses and its entries are merged into the running
result, a scalar child is stored directly; arrays are identical with the
zero-based index's decimal string as key; a top-level scalar yields
`{pathPrefix: value}` when `pathPrefix` is non-empty and `{}` otherwise. -/
def flatten_ref (value : Json) (pathPrefix : String) (separator : String) : FlatRecord :=
  match value with
  | .obj pairs => flattenRefPairs [] pairs pathPrefix separator
  | .arr elems => flattenRefElems [] elems 0 pathPrefix separator
  | j => if pathPrefix.isEmpty then [] else [(pathPrefix, j)]
termination_by sizeOf value

/-- Spec §4.1, object case: fold over the pairs, merging or storing into the
accumulated result. -/
def flattenRefPairs (result : FlatRecord) (pairs : List (String × Json))
    (pathPrefix : String) (separator : String) : FlatRecord :=
  match pairs with
  | [] => result
  | (key, value) :: rest =>
      let childKey := if pathPrefix.isEmpty then key else pathPrefix ++ separator ++ key
      let result :=
        if value.isContainer then mergeRecord result (flatten_ref value childKey separator)
        else dictInsert result childKey value
      flattenRefPairs result rest pathPrefix separator
termination_by sizeOf pairs

/-- Spec §4.1, array case: identical to the object case, with the zero-based
index's decimal string as the key. -/
def flattenRefElems (result : FlatRecord) (elems : List Json) (i : Nat)
    (pathPrefix : String) (separator : String) : FlatRecord :=
  match elems with
  | [] => result
  | value :: rest =>
      let childKey := if pathPrefix.isEmpty then toString i else pathPrefix ++ separator ++ toString i
      let result :=
        if value.isContainer then mergeRecord result (flatten_ref value childKey separator)
        else dictInsert result childKey value
      flattenRefElems result rest (i + 1) pathPrefix separator
termination_by sizeOf elems

end

/-! ### Record normalization (`json_to_csv`, lines 72–92) -/

/-- The error taxonomy of the spec (§7), as raised by the code: the two
`ValueError`s of `json_to_csv` plus an I/O failure while writing, whose
message is whatever the underlying exception stringifies to. -/
inductive ConvError where
  | invalidTopLevel : ConvError
  | emptyInput : ConvError
  | writeError : String → ConvError

/-- Message `str(e)` for each raised error: the exact message strings of the source. -/
def ConvError.message : ConvError → String
  | .invalidTopLevel => "JSON data must be a dict or list of dicts"
  | .emptyInput => "JSON data is empty"
  | .writeError s => s

/-- Lines 74–77: a dict is wrapped into a one-element list; a list is taken
as is; anything else raises `ValueError("JSON data must be a dict or list of
dicts")`. -/
def normalizeTop (j : Json) : Except ConvError (List Json) :=
  match j with
  | .obj _ => .ok [j]
  | .arr elems => .ok elems
  | _ => .error .invalidTopLevel

/-- Lines 74–80: normalization followed by the emptiness check
(`if not json_data: raise ValueError("JSON data is empty")`). -/
def normalizeRecords (j : Json) : Except ConvError (List Json) :=
  match normalizeTop j with
  | .error e => .error e
  | .ok l => if l.isEmpty then .error .emptyInput else .ok l

/-! ### Key-set construction (`json_to_csv`, lines 82–92) -/

/-- The inner `for key in flattened.keys()` loop: append each key not yet in
`ordered_keys`; keys already present are not re-appended. -/
def updateKeys (ordered_keys : List String) (ks : List String) : List String :=
  ks.foldl (fun acc key => if key ∈ acc then acc else acc ++ [key]) ordered_keys

/-- The `for record in json_data` loop, key-set part: the `ordered_keys` list
accumulated over the flattened records. -/
def buildOrderedKeys (flattened_records : List FlatRecord) : List String :=
  flattened_records.foldl (fun acc r => updateKeys acc (r.map (fun p => p.1))) []

/-- Distinct elements of a list in first-seen order — the specification-side
description of the `OrderedKeySet` ("the ordered sequence of all distinct
composite keys ... in first-seen order"). -/
def firstSeen (xs : List String) : List String :=
  match xs with
  | [] => []
  | x :: rest => x :: firstSeen (rest.filter (fun y => y ≠ x))
termination_by xs.length
decreasing_by
  simp only [List.length_cons]
  exact Nat.lt_succ_of_le (List.length_filter_le _ _)

/-! ### CSV cell rendering and quote-all serialization

The code writes through `csv.DictWriter(..., delimiter=',', quotechar='"',
quoting=csv.QUOTE_ALL)`: every cell (header cells included) is wrapped in
double quotes with embedded quotes doubled, cells are joined with `,`, and
non-string scalars are stringified (`None` becoming the empty string). -/

/-- How Python's csv writer renders one scalar cell: strings pass through,
`None` becomes the empty string, booleans and numbers are `str()`-ed.
Containers never occur in a `FlatRecord` produced by `flatten_json`. -/
def Json.csvCell : Json → String
  | .null => ""
  | .bool true => "True"
  | .bool false => "False"
  | .num n => toString n
  | .str s => s
  | .arr _ => ""
  | .obj _ => ""

/-- The comprehension `{key: record.get(key, ...) for key in ordered_keys}` followed by the csv
writer's cell rendering: one output data row, missing keys filled with the
empty string. -/
def rowFor (ordered_keys : List String) (record : FlatRecord) : List String :=
  ordered_keys.map (fun key =>
    match List.lookup key record with
    | some v => v.csvCell
    | none => "")

/-- Double every embedded `"`, per the CSV quoting convention. -/
def escapeChars (cs : List Char) : List Char :=
  cs.flatMap (fun c => if c = '"' then ['"', '"'] else [c])

/-- One QUOTE_ALL cell: unconditionally wrapped in double quotes, embedded
quotes doubled. -/
def quoteField (s : String) : String :=
  "\"" ++ String.mk (escapeChars s.data) ++ "\""

/-- One serialized CSV row (line terminator excluded): the quoted cells
joined with the `,` delimiter. -/
def renderRow (cells : List String) : String :=
  match cells with
  | [] => ""
  | [c] => quoteField c
  | c :: rest => quoteField c ++ "," ++ renderRow rest

mutual

/-- A standard CSV reader's scan of one record of all-quoted fields:
expects an opening `"` and scans the field body. Modelled from the spec:
the "standard CSV reader" of §8 is external to the repository. -/
def parseFields (cs : List Char) : Option (List String) :=
  match cs with
  | '"' :: rest => parseBody [] rest
  | _ => none

/-- Inside a quoted field body (`acc` holds the content read so far): a
doubled `""` is an escaped quote; a lone `"` closes the field, after which
the record must end or continue with `,` and the next quoted field. -/
def parseBody (acc : List Char) (cs : List Char) : Option (List String) :=
  match cs with
  | [] => none
  | c :: rest =>
      if c = '"' then
        match rest with
        | [] => some [String.mk acc]
        | r :: rest2 =>
            if r = '"' then parseBody (acc ++ ['"']) rest2
            else if r = ',' then (parseFields rest2).map (fun fs => String.mk acc :: fs)
            else none
      else parseBody (acc ++ [c]) rest

end

/-- Parse one full CSV record (a row with no line terminator) back into its
field values, as a standard CSV reader would. -/
def parseRow (s : String) : Option (List String) :=
  parseFields s.data

/-! ### Output paths and files -/

/-- The components of the output `Path` the code manipulates:
`output_path.parent`, `output_path.stem`, `output_path.suffix`. -/
structure OutPath where
  dir : String
  stem : String
  ext : String

/-- Python `file_path.name`: base name with extension — what the split writer
records in `created_files`. -/
def OutPath.name (p : OutPath) : String := p.stem ++ p.ext

/-- The full path (`base_dir / name`), the key used when opening the file. -/
def OutPath.full (p : OutPath) : String := p.dir ++ "/" ++ p.name

/-- One written CSV file: its path, the header cells, and the data rows
(cell values before quoting; `CsvFile.lines` renders the quoted text). -/
structure CsvFile where
  path : OutPath
  header : List String
  rows : List (List String)

/-- The serialized text of a file, line by line (line terminators dropped):
the quoted header row followed by the quoted data rows. -/
def CsvFile.lines (f : CsvFile) : List String :=
  renderRow f.header :: f.rows.map renderRow

/-- File-system oracle: `fs path = some e` means opening `path` for writing
raises an exception whose `str()` is `e`; `none` means the write succeeds. -/
abbrev FS := String → Option String

/-- The `(success, num_files, message)` triple the converter returns,
together with the files actually written on disk (partial on failure —
the code does not roll back). -/
structure ConvResult where
  success : Bool
  num_files : Nat
  message : String
  files : List CsvFile

/-! ### The writers (`json_to_csv` lines 101–117, `_write_split_csv`) -/

/-- The single-file branch of `json_to_csv` (lines 101–117): open
`output_path`, write the header and one row per record in input order. An
open failure is caught by the surrounding `except` and becomes
`(False, 0, str(e))`. -/
def writeSingle (fs : FS) (flattened_records : List FlatRecord)
    (ordered_keys : List String) (output_path : OutPath) : ConvResult :=
  match fs output_path.full with
  | some e => ⟨false, 0, e, []⟩
  | none =>
      ⟨true, 1, "Created 1 CSV file with " ++ toString flattened_records.length ++ " rows",
        [⟨output_path, ordered_keys, flattened_records.map (rowFor ordered_keys)⟩]⟩

/-- Slice `flattened_records[start_idx:end_idx]` for chunk `file_num = j + 1`:
`start_idx = j * T`, `end_idx = min(start_idx + T, total)`. -/
def chunkSlice (records : List FlatRecord) (T : Nat) (j : Nat) : List FlatRecord :=
  (records.drop (j * T)).take T

/-- Lines 154–157: `base_dir / f"{base_name}_{file_num}{base_ext}"` when more
than one file is produced, the original `output_path` otherwise. -/
def chunkPath (output_path : OutPath) (num_files : Nat) (file_num : Nat) : OutPath :=
  if num_files > 1 then ⟨output_path.dir, output_path.stem ++ "_" ++ toString file_num, output_path.ext⟩
  else output_path

/-- The `for file_num in range(1, num_files + 1)` loop of `_write_split_csv`,
with `rem` files still to write: returns the files written and `some e` if an
open raised `e` (aborting the remaining writes, earlier files staying on
disk). -/
def writeChunksLoop (fs : FS) (records : List FlatRecord) (ordered_keys : List String)
    (output_path : OutPath) (T : Nat) (num_files : Nat) :
    Nat → Nat → List CsvFile × Option String
  | _, 0 => ([], none)
  | file_num, rem + 1 =>
      let p := chunkPath output_path num_files file_num
      match fs p.full with
      | some e => ([], some e)
      | none =>
          let f : CsvFile :=
            ⟨p, ordered_keys, (chunkSlice records T (file_num - 1)).map (rowFor ordered_keys)⟩
          let r := writeChunksLoop fs records ordered_keys output_path T num_files (file_num + 1) rem
          (f :: r.1, r.2)

/-- Source function `JsonToCsvConverter._write_split_csv`: ceiling-divides the record count
by `max_rows_per_file`, writes each contiguous chunk to its numbered file
(each with its own header), and reports the created file names; any raised
exception is caught and returned as `(False, 0, str(e))`. (`json_to_csv`
only calls this with `max_rows_per_file > 0`.) -/
def write_split_csv (fs : FS) (flattened_records : List FlatRecord)
    (ordered_keys : List String) (output_path : OutPath) (max_rows_per_file : Nat) : ConvResult :=
  let total_records := flattened_records.length
  let num_files := (total_records + max_rows_per_file - 1) / max_rows_per_file
  match writeChunksLoop fs flattened_records ordered_keys output_path max_rows_per_file num_files
      1 num_files with
  | (files, some e) => ⟨false, 0, e, files⟩
  | (files, none) =>
      ⟨true, num_files,
        "Created " ++ toString num_files ++ " CSV file(s) with " ++ toString total_records
          ++ " total rows: " ++ String.intercalate ", " (files.map (fun f => f.path.name)),
        files⟩

/-- Source function `JsonToCsvConverter.json_to_csv`: normalize, flatten every record with
separator `_`, build the ordered key list, then split
(`max_rows_per_file and max_rows_per_file > 0 and total_records >
max_rows_per_file` — over `Nat`, `some T` with `0 < T ∧ T < N`) or write a
single file; every raised error is caught and returned as
`(False, 0, str(e))`. -/
def json_to_csv (fs : FS) (json_data : Json) (output_path : OutPath)
    (max_rows_per_file : Option Nat) : ConvResult :=
  match normalizeRecords json_data with
  | .error e => ⟨false, 0, e.message, []⟩
  | .ok records =>
      let flattened_records := records.map (fun r => flatten_json r "" "_")
      let ordered_keys := buildOrderedKeys flattened_records
      let total_records := flattened_records.length
      match max_rows_per_file with
      | some T =>
          if 0 < T ∧ T < total_records then
            write_split_csv fs flattened_records ordered_keys output_path T
          else
            writeSingle fs flattened_records ordered_keys output_path
      | none => writeSingle fs flattened_records ordered_keys output_path

/-! ## Lemmas about the quote-all serialization (claim C5) -/

/-- Scanning an escaped field body up to its closing quote at the end of the
record recovers the original content. -/
theorem parseBody_escape_end (cs : List Char) :
    ∀ acc, parseBody acc (escapeChars cs ++ ['"']) = some [String.mk (acc ++ cs)] := by
  induction cs with
  | nil => intro acc; simp [escapeChars, parseBody]
  | cons c rest ih =>
      intro acc
      by_cases hc : c = '"'
      · subst hc
        have he : escapeChars ('"' :: rest) ++ ['"'] = '"' :: '"' :: (escapeChars rest ++ ['"']) := by
          simp [escapeChars]
        rw [he, parseBody.eq_def]
        simp only [if_pos rfl]
        rw [ih]
        simp
      · have he : escapeChars (c :: rest) ++ ['"'] = c :: (escapeChars rest ++ ['"']) := by
          simp [escapeChars, hc]
        rw [he, parseBody.eq_def]
        simp only [if_neg hc]
        rw [ih]
        simp

/-- Scanning an escaped field body up to its closing quote followed by a
comma recovers the content and continues with the next field. -/
theorem parseBody_escape_comma (cs : List Char) :
    ∀ acc ts, parseBody acc (escapeChars cs ++ '"' :: ',' :: ts) =
      (parseFields ts).map (fun fs => String.mk (acc ++ cs) :: fs) := by
  induction cs with
  | nil =>
      intro acc ts
      simp only [escapeChars, List.flatMap_nil, List.nil_append]
      rw [parseBody.eq_def]
      simp
  | cons c rest ih =>
      intro acc ts
      by_cases hc : c = '"'
      · subst hc
        have he : escapeChars ('"' :: rest) ++ '"' :: ',' :: ts
            = '"' :: '"' :: (escapeChars rest ++ '"' :: ',' :: ts) := by
          simp [escapeChars]
        rw [he, parseBody.eq_def]
        simp only [if_pos rfl]
        rw [ih]
        simp
      · have he : escapeChars (c :: rest) ++ '"' :: ',' :: ts
            = c :: (escapeChars rest ++ '"' :: ',' :: ts) := by
          simp [escapeChars, hc]
        rw [he, parseBody.eq_def]
        simp only [if_neg hc]
        rw [ih]
        simp

/-- Row-level round trip: a rendered quote-all record parses back to exactly
its original cells. -/
theorem parseRow_renderRow (cells : List String) (h : cells ≠ []) :
    parseRow (renderRow cells) = some cells := by
  induction cells with
  | nil => exact absurd rfl h
  | cons c rest ih =>
      match rest with
      | [] =>
          show parseFields (renderRow [c]).data = some [c]
          have hd : (renderRow [c]).data = '"' :: (escapeChars c.data ++ ['"']) := by
            simp [renderRow, quoteField]
          rw [hd, parseFields.eq_def]
          simp only []
          rw [parseBody_escape_end]
          simp
      | d :: rest2 =>
          show parseFields (renderRow (c :: d :: rest2)).data = some (c :: d :: rest2)
          have hd : (renderRow (c :: d :: rest2)).data
              = '"' :: (escapeChars c.data ++ '"' :: ',' :: (renderRow (d :: rest2)).data) := by
            simp [renderRow, quoteField]
          rw [hd, parseFields.eq_def]
          simp only []
          rw [parseBody_escape_comma]
          rw [show parseFields (renderRow (d :: rest2)).data = some (d :: rest2) from ih (by simp)]
          simp

/-- C5: every cell of every row (header cells included) is unconditionally
wrapped in double quotes with embedded double quotes doubled, and a written
record — in particular one whose value contains a comma, a double quote and
a newline — parses back by a standard CSV reader to the exact original
strings. -/
theorem quote_all_roundtrip :
    (∀ s : String, quoteField s = "\"" ++ String.mk (escapeChars s.data) ++ "\"") ∧
    (∀ f : CsvFile, f.lines = renderRow f.header :: f.rows.map renderRow) ∧
    (∀ cells : List String, cells ≠ [] → parseRow (renderRow cells) = some cells) := by
  refine ⟨fun s => rfl, fun f => rfl, parseRow_renderRow⟩

/-- C5 witness: the round trip at the value `a,"b"` + newline + `c`. -/
theorem quote_all_roundtrip_witness :
    (["a,\"b\"\nc"] : List String) ≠ [] ∧
      parseRow (renderRow ["a,\"b\"\nc"]) = some ["a,\"b\"\nc"] :=
  ⟨by decide, quote_all_roundtrip.2.2 ["a,\"b\"\nc"] (by decide)⟩

/-! ## The flattener agrees with the spec's reference definition (claim C3) -/

theorem mergeRecord_append (d : FlatRecord) (xs ys : List (String × Json)) :
    mergeRecord d (xs ++ ys) = mergeRecord (mergeRecord d xs) ys := by
  simp [mergeRecord, List.foldl_append]

/-- The spec's per-pair fold over an object's entries computes the same
record as merging the source's accumulated `items` list. -/
theorem flattenRefPairs_merge (ps : List (String × Json))
    (hrec : ∀ k v, (k, v) ∈ ps → ∀ pk sep, flatten_ref v pk sep = flatten_json v pk sep) :
    ∀ acc pk sep, flattenRefPairs acc ps pk sep = mergeRecord acc (flattenPairs ps pk sep) := by
  induction ps with
  | nil => intro acc pk sep; rw [flattenRefPairs.eq_def, flattenPairs.eq_def]; rfl
  | cons p rest ih =>
      intro acc pk sep
      obtain ⟨k, v⟩ := p
      rw [flattenRefPairs.eq_def, flattenPairs.eq_def]
      simp only []
      rw [mergeRecord_append]
      by_cases hc : v.isContainer
      · simp only [hc, if_pos rfl]
        rw [hrec k v (by simp) _ _]
        exact ih (fun k' v' hm => hrec k' v' (List.mem_cons_of_mem _ hm)) _ _ _
      · simp only [hc, Bool.false_eq_true, if_false]
        rw [show ∀ (d : FlatRecord) k v, mergeRecord d [(k, v)] = dictInsert d k v
            from fun d k v => rfl]
        exact ih (fun k' v' hm => hrec k' v' (List.mem_cons_of_mem _ hm)) _ _ _

/-- The spec's per-element fold over an array computes the same record as
merging the source's accumulated `items` list. -/
theorem flattenRefElems_merge (es : List Json)
    (hrec : ∀ v, v ∈ es → ∀ pk sep, flatten_ref v pk sep = flatten_json v pk sep) :
    ∀ acc i pk sep, flattenRefElems acc es i pk sep = mergeRecord acc (flattenElems es i pk sep) := by
  induction es with
  | nil => intro acc i pk sep; rw [flattenRefElems.eq_def, flattenElems.eq_def]; rfl
  | cons v rest ih =>
      intro acc i pk sep
      rw [flattenRefElems.eq_def, flattenElems.eq_def]
      simp only []
      rw [mergeRecord_append]
      by_cases hc : v.isContainer
      · simp only [hc, if_pos rfl]
        rw [hrec v (by simp) _ _]
        exact ih (fun v' hm => hrec v' (List.mem_cons_of_mem _ hm)) _ _ _ _
      · simp only [hc, Bool.false_eq_true, if_false]
        rw [show ∀ (d : FlatRecord) k v, mergeRecord d [(k, v)] = dictInsert d k v
            from fun d k v => rfl]
        exact ih (fun v' hm => hrec v' (List.mem_cons_of_mem _ hm)) _ _ _ _

/-- Strong induction on the size of the JSON value. -/
theorem flatten_ref_eq_aux :
    ∀ (n : Nat) (j : Json), sizeOf j ≤ n → ∀ pk sep, flatten_ref j pk sep = flatten_json j pk sep := by
  intro n
  induction n with
  | zero =>
      intro j h
      exfalso
      cases j <;> simp_all
  | succ n ih =>
      intro j hj pk sep
      cases j with
      | obj pairs =>
          rw [flatten_ref.eq_def, flatten_json.eq_def]
          simp only []
          rw [flattenRefPairs_merge pairs]
          · rfl
          · intro k v hm pk' sep'
            have h1 := List.sizeOf_lt_of_mem hm
            simp only [Json.obj.sizeOf_spec] at hj
            simp only [Prod.mk.sizeOf_spec] at h1
            exact ih v (by omega) pk' sep'
      | arr elems =>
          rw [flatten_ref.eq_def, flatten_json.eq_def]
          simp only []
          rw [flattenRefElems_merge elems]
          · rfl
          · intro v hm pk' sep'
            have h1 := List.sizeOf_lt_of_mem hm
            simp only [Json.arr.sizeOf_spec] at hj
            exact ih v (by omega) pk' sep'
      | null => rw [flatten_ref.eq_def, flatten_json.eq_def]
      | bool b => rw [flatten_ref.eq_def, flatten_json.eq_def]
      | num m => rw [flatten_ref.eq_def, flatten_json.eq_def]
      | str s => rw [flatten_ref.eq_def, flatten_json.eq_def]

/-- C3: `flatten_json` computes, for every JSON value, path prefix and
separator, exactly the record described by the spec's reference recursive
definition (`flatten_ref`): objects contribute `childKey = key` when the
prefix is empty and `prefix ++ sep ++ key` otherwise, recursing and merging
for nested containers and storing directly for scalars; arrays do the same
with the zero-based index's decimal string; a scalar yields the single-entry
record for a non-empty prefix and the empty record for the empty prefix. -/
theorem flatten_json_eq_ref :
    ∀ (value : Json) (pathPrefix separator : String),
      flatten_json value pathPrefix separator = flatten_ref value pathPrefix separator :=
  fun j pk sep => (flatten_ref_eq_aux (sizeOf j) j le_rfl pk sep).symm

/-! ## Flattening collisions silently overwrite (claim C8) -/

/-- C8: on `{"a_b": "x", "a": {"b": "y"}}` the two distinct JSON paths both
flatten to the composite key `a_b`; the second-written entry (`"y"`, from the
nested object) silently overwrites the first (`"x"`): the result is the
one-entry record `{"a_b": "y"}`, with no error raised (flattening is total). -/
theorem flatten_collision_overwrite :
    flatten_json (.obj [("a_b", .str "x"), ("a", .obj [("b", .str "y")])]) "" "_"
      = [("a_b", .str "y")] := by
  simp only [flatten_json, flattenPairs, flattenElems]
  rfl

/-! ## Normalization error taxonomy (claim C6) -/

/-- C6: normalization fails with the empty-input error exactly when the
normalized record list has zero elements (equivalently, on input `[]`), and
with the invalid-top-level error exactly when the top-level value is neither
a dict nor a list (e.g. the bare scalar `42`, or `null`); a top-level dict is
wrapped into a one-element list and succeeds. -/
theorem normalize_error_taxonomy :
    (∀ j : Json, normalizeRecords j = .error .emptyInput ↔ normalizeTop j = .ok []) ∧
    (∀ j : Json, normalizeRecords j = .error .emptyInput ↔ j = .arr []) ∧
    (∀ j : Json, normalizeRecords j = .error .invalidTopLevel ↔
      (j.isObj = false ∧ j.isArr = false)) ∧
    (∀ pairs, normalizeRecords (.obj pairs) = .ok [.obj pairs]) ∧
    normalizeRecords (.num 42) = .error .invalidTopLevel ∧
    normalizeRecords .null = .error .invalidTopLevel := by
  refine ⟨fun j => ?_, fun j => ?_, fun j => ?_, fun pairs => ?_, ?_, ?_⟩
  · cases j with
    | arr elems => cases elems <;> simp [normalizeRecords, normalizeTop]
    | _ => simp [normalizeRecords, normalizeTop]
  · cases j with
    | arr elems => cases elems <;> simp [normalizeRecords, normalizeTop]
    | _ => simp [normalizeRecords, normalizeTop]
  · cases j with
    | arr elems => cases elems <;> simp [normalizeRecords, normalizeTop, Json.isObj, Json.isArr]
    | _ => simp [normalizeRecords, normalizeTop, Json.isObj, Json.isArr]
  · simp [normalizeRecords, normalizeTop]
  · simp [normalizeRecords, normalizeTop]
  · simp [normalizeRecords, normalizeTop]

/-! ## The ordered key set is first-seen deduplication (claim C7) -/

theorem updateKeys_append (acc : List String) (xs ys : List String) :
    updateKeys acc (xs ++ ys) = updateKeys (updateKeys acc xs) ys := by
  simp [updateKeys, List.foldl_append]

/-- Appending the not-yet-seen keys of a stream to `acc` appends exactly the
first-seen deduplication of the stream's fresh part. -/
theorem updateKeys_firstSeen (ks : List String) :
    ∀ acc, updateKeys acc ks = acc ++ firstSeen (ks.filter (fun k => decide (k ∉ acc))) := by
  induction ks with
  | nil => intro acc; simp [updateKeys, firstSeen]
  | cons k ks ih =>
      intro acc
      have hstep : updateKeys acc (k :: ks)
          = updateKeys (if k ∈ acc then acc else acc ++ [k]) ks := by
        simp [updateKeys]
      rw [hstep]
      by_cases hk : k ∈ acc
      · rw [if_pos hk, ih]
        have hf : (k :: ks).filter (fun k' => decide (k' ∉ acc))
            = ks.filter (fun k' => decide (k' ∉ acc)) := by
          simp [List.filter_cons, hk]
        rw [hf]
      · rw [if_neg hk, ih]
        have hf : (k :: ks).filter (fun k' => decide (k' ∉ acc))
            = k :: ks.filter (fun k' => decide (k' ∉ acc)) := by
          simp [List.filter_cons, hk]
        have hfs : ∀ (x : String) (L : List String),
            firstSeen (x :: L) = x :: firstSeen (L.filter (fun y => decide (y ≠ x))) := by
          intro x L
          rw [firstSeen.eq_def]
        rw [hf, hfs, List.filter_filter]
        have hcong : ks.filter (fun a => decide (a ≠ k) && decide (a ∉ acc))
            = ks.filter (fun a => decide (a ∉ acc ++ [k])) := by
          apply List.filter_congr
          intro a _
          by_cases h1 : a = k <;> by_cases h2 : a ∈ acc <;> simp [h1, h2]
        rw [hcong, List.append_assoc, List.singleton_append]

theorem firstSeen_cons (x : String) (L : List String) :
    firstSeen (x :: L) = x :: firstSeen (L.filter (fun y => decide (y ≠ x))) := by
  rw [firstSeen.eq_def]

theorem mem_of_mem_firstSeen :
    ∀ (xs : List String) (y : String), y ∈ firstSeen xs → y ∈ xs := by
  intro xs
  induction xs using firstSeen.induct with
  | case1 => intro y h; simp [firstSeen] at h
  | case2 x rest ih =>
      intro y h
      rw [firstSeen_cons] at h
      rcases List.mem_cons.mp h with h1 | h2
      · exact h1 ▸ List.mem_cons_self _ _
      · have := ih y h2
        exact List.mem_cons_of_mem _ (List.mem_filter.mp this).1

/-- No key is ever re-appended: the first-seen sequence has no duplicates. -/
theorem firstSeen_nodup (xs : List String) : (firstSeen xs).Nodup := by
  induction xs using firstSeen.induct with
  | case1 => simp [firstSeen]
  | case2 x rest ih =>
      rw [firstSeen_cons]
      refine List.nodup_cons.mpr ⟨?_, ih⟩
      intro hx
      have hm := mem_of_mem_firstSeen _ _ hx
      have := (List.mem_filter.mp hm).2
      simp at this

/-- The first-seen sequence contains exactly the keys of the stream. -/
theorem mem_firstSeen_iff (xs : List String) (y : String) : y ∈ firstSeen xs ↔ y ∈ xs := by
  constructor
  · exact mem_of_mem_firstSeen xs y
  · induction xs using firstSeen.induct with
    | case1 => intro h; simp at h
    | case2 x rest ih =>
        intro h
        rw [firstSeen_cons]
        rcases List.mem_cons.mp h with h1 | h2
        · exact h1 ▸ List.mem_cons_self _ _
        · by_cases hyx : y = x
          · exact hyx ▸ List.mem_cons_self _ _
          · refine List.mem_cons_of_mem _ (ih ?_)
            exact List.mem_filter.mpr ⟨h2, by simp [hyx]⟩

theorem buildOrderedKeys_firstSeen (recs : List FlatRecord) :
    buildOrderedKeys recs = firstSeen (recs.flatMap (fun r => r.map (fun p => p.1))) := by
  have h : ∀ (rs : List FlatRecord) (acc : List String),
      rs.foldl (fun acc r => updateKeys acc (r.map (fun p => p.1))) acc
        = updateKeys acc (rs.flatMap (fun r => r.map (fun p => p.1))) := by
    intro rs
    induction rs with
    | nil => intro acc; simp [updateKeys]
    | cons r rs ih =>
        intro acc
        simp only [List.foldl_cons, List.flatMap_cons]
        rw [updateKeys_append, ih]
  show List.foldl _ [] recs = _
  rw [h recs [], updateKeys_firstSeen]
  have : (recs.flatMap (fun r => r.map (fun p => p.1))).filter
      (fun k => decide (k ∉ ([] : List String)))
      = recs.flatMap (fun r => r.map (fun p => p.1)) := by
    apply List.filter_eq_self.mpr
    intro a _
    simp
  rw [this, List.nil_append]

/-- C7: the `ordered_keys` list built by the conversion loop is exactly the
distinct flattened keys in first-seen order over the key stream of the
records in input order: it equals the first-seen deduplication of that
stream, has no duplicates (a key is appended once and never re-appended),
and contains exactly the keys occurring in the records; being a pure
function of the flattened records, rerunning the same input reproduces the
identical ordered key list. -/
theorem ordered_keys_first_seen (flattened_records : List FlatRecord) :
    buildOrderedKeys flattened_records
        = firstSeen (flattened_records.flatMap (fun r => r.map (fun p => p.1))) ∧
    (buildOrderedKeys flattened_records).Nodup ∧
    (∀ k, k ∈ buildOrderedKeys flattened_records
        ↔ k ∈ flattened_records.flatMap (fun r => r.map (fun p => p.1))) := by
  refine ⟨buildOrderedKeys_firstSeen _, ?_, ?_⟩
  · rw [buildOrderedKeys_firstSeen]
    exact firstSeen_nodup _
  · intro k
    rw [buildOrderedKeys_firstSeen]
    exact mem_firstSeen_iff _ _



theorem rowFor_length (keys : List String) (r : FlatRecord) :
    (rowFor keys r).length = keys.length := by
  simp [rowFor]

theorem writeChunksLoop_clean (fs : FS) (records : List FlatRecord) (keys : List String)
    (out : OutPath) (T k : Nat) (hfs : ∀ p, fs p = none) :
    ∀ rem file_num, writeChunksLoop fs records keys out T k file_num rem
      = ((List.range rem).map (fun t =>
          ⟨chunkPath out k (file_num + t), keys,
            (chunkSlice records T (file_num + t - 1)).map (rowFor keys)⟩), none) := by
  intro rem
  induction rem with
  | zero => intro fn; simp [writeChunksLoop]
  | succ rem ih =>
      intro fn
      rw [writeChunksLoop.eq_def]
      simp only [hfs]
      rw [ih (fn + 1)]
      rw [List.range_succ_eq_map]
      simp only [List.map_cons, List.map_map]
      refine Prod.ext ?_ rfl
      simp only [List.map_cons, List.map_map]
      congr 1
      refine List.map_congr_left ?_
      intro t ht
      have h1 : fn + 1 + t = fn + (t + 1) := by omega
      simp [Function.comp, h1]


theorem writeChunksLoop_shape (fs : FS) (records : List FlatRecord) (keys : List String)
    (out : OutPath) (T k : Nat) :
    ∀ rem file_num, ∀ f ∈ (writeChunksLoop fs records keys out T k file_num rem).1,
      ∃ i, file_num ≤ i ∧ i < file_num + rem ∧
        f = ⟨chunkPath out k i, keys, (chunkSlice records T (i - 1)).map (rowFor keys)⟩ := by
  intro rem
  induction rem with
  | zero => intro fn f hf; simp [writeChunksLoop] at hf
  | succ rem ih =>
      intro fn f hf
      rw [writeChunksLoop.eq_def] at hf
      cases hfs : fs (chunkPath out k fn).full with
      | some e => simp only [hfs] at hf; simp at hf
      | none =>
          simp only [hfs] at hf
          rcases List.mem_cons.mp hf with h1 | h2
          · exact ⟨fn, le_rfl, by omega, h1⟩
          · obtain ⟨i, hi1, hi2, hi3⟩ := ih (fn + 1) f h2
            exact ⟨i, by omega, by omega, hi3⟩

theorem writeChunksLoop_fail (fs : FS) (records : List FlatRecord) (keys : List String)
    (out : OutPath) (T k : Nat) :
    ∀ rem file_num files e,
      writeChunksLoop fs records keys out T k file_num rem = (files, some e) →
      ∃ p, fs p = some e := by
  intro rem
  induction rem with
  | zero => intro fn files e h; simp [writeChunksLoop] at h
  | succ rem ih =>
      intro fn files e h
      rw [writeChunksLoop.eq_def] at h
      cases hfs : fs (chunkPath out k fn).full with
      | some e2 =>
          simp only [hfs] at h
          have : e2 = e := by
            have := congrArg Prod.snd h
            simpa using this
          exact ⟨(chunkPath out k fn).full, this ▸ hfs⟩
      | none =>
          simp only [hfs] at h
          have h2 := congrArg Prod.snd h
          simp only [] at h2
          exact ih (fn + 1) _ e (Prod.ext rfl h2)

theorem ceil_div_succ {N T : Nat} (hT : 0 < T) (hN : 0 < N) :
    (N + T - 1) / T = ((N - T) + T - 1) / T + 1 := by
  rcases le_or_lt N T with h | h
  · have h1 : N - T = 0 := by omega
    rw [h1]
    have h2 : (N + T - 1) / T = 1 := by
      apply Nat.div_eq_of_lt_le <;> omega
    have h3 : (0 + T - 1) / T = 0 := Nat.div_eq_of_lt (by omega)
    omega
  · have h0 : N + T - 1 = (N - 1) + T := by omega
    have h0' : (N - T) + T - 1 = (N - T - 1) + T := by omega
    rw [h0, h0', Nat.add_div_right _ hT, Nat.add_div_right _ hT]
    have h5 : N - 1 = (N - T - 1) + T := by omega
    rw [h5, Nat.add_div_right _ hT]

/-- Concatenating the contiguous chunk slices in order reproduces the
original record list. -/
theorem join_chunkSlice (T : Nat) (hT : 0 < T) :
    ∀ (n : Nat) (l : List FlatRecord), l.length ≤ n →
      (List.range ((l.length + T - 1) / T)).flatMap (fun j => chunkSlice l T j) = l := by
  intro n
  induction n with
  | zero =>
      intro l hl
      have h0 : l = [] := List.eq_nil_of_length_eq_zero (by omega)
      subst h0
      simp only [List.length_nil, Nat.zero_add]
      rw [Nat.div_eq_of_lt (by omega)]
      simp
  | succ n ih =>
      intro l hl
      match l with
      | [] =>
          simp only [List.length_nil, Nat.zero_add]
          rw [Nat.div_eq_of_lt (by omega)]
          simp
      | a :: as =>
          have hN : 0 < (a :: as).length := by simp
          have hdrop : ((a :: as).drop T).length = (a :: as).length - T := List.length_drop _ _
          have hdec : ((a :: as).length + T - 1) / T
              = ((((a :: as).drop T).length + T - 1) / T) + 1 := by
            rw [hdrop]
            exact ceil_div_succ hT hN
          rw [hdec, List.range_succ_eq_map, List.flatMap_cons, List.flatMap_map]
          have hhead : chunkSlice (a :: as) T 0 = (a :: as).take T := by
            simp [chunkSlice]
          have htail : ∀ j, chunkSlice (a :: as) T (j + 1) = chunkSlice ((a :: as).drop T) T j := by
            intro j
            simp only [chunkSlice, List.drop_drop]
            rw [Nat.succ_mul, Nat.add_comm]
          have hcong : (List.range ((((a :: as).drop T).length + T - 1) / T)).flatMap
                (fun j => chunkSlice (a :: as) T (j + 1))
              = (List.range ((((a :: as).drop T).length + T - 1) / T)).flatMap
                (fun j => chunkSlice ((a :: as).drop T) T j) := by
            apply List.flatMap_congr
            intro j hj
            exact htail j
          have hih := ih ((a :: as).drop T) (by rw [hdrop]; simp at hl ⊢; omega)
          calc chunkSlice (a :: as) T 0
                ++ (List.range ((((a :: as).drop T).length + T - 1) / T)).flatMap
                  (fun j => chunkSlice (a :: as) T (j + 1))
              = (a :: as).take T ++ (a :: as).drop T := by rw [hhead, hcong, hih]
            _ = a :: as := List.take_append_drop _ _

theorem le_ceil_mul {N T : Nat} (hT : 0 < T) : N ≤ T * ((N + T - 1) / T) := by
  have h := Nat.div_add_mod (N + T - 1) T
  have hm : (N + T - 1) % T < T := Nat.mod_lt _ hT
  omega

theorem ceil_pred_mul_lt {N T : Nat} (hT : 0 < T) (hN : 0 < N) :
    (((N + T - 1) / T) - 1) * T < N := by
  have h1 : (N + T - 1) / T * T ≤ N + T - 1 := Nat.div_mul_le_self _ _
  have h2 : 1 ≤ (N + T - 1) / T := by
    rw [Nat.le_div_iff_mul_le hT]; omega
  have h3 : (((N + T - 1) / T) - 1) * T = (N + T - 1) / T * T - T := by
    rw [Nat.sub_mul, Nat.one_mul]
  have h4 : N ≤ T * ((N + T - 1) / T) := le_ceil_mul hT
  rw [Nat.mul_comm] at h4
  omega

theorem ceil_div_ge_two {N T : Nat} (hT : 0 < T) (hTN : T < N) : 2 ≤ (N + T - 1) / T := by
  rw [Nat.le_div_iff_mul_le hT]
  omega

/-- Behavior of `_write_split_csv` on a failure-free file system: the success result with
`ceil(N/T)` chunk files, the `t`-th (0-based) being chunk `t + 1` holding the
slice `records[t*T : t*T+T]`. -/
theorem write_split_csv_clean (fs : FS) (records : List FlatRecord) (keys : List String)
    (out : OutPath) (T : Nat) (hfs : ∀ p, fs p = none) :
    write_split_csv fs records keys out T =
      ⟨true, (records.length + T - 1) / T,
        "Created " ++ toString ((records.length + T - 1) / T) ++ " CSV file(s) with "
          ++ toString records.length ++ " total rows: "
          ++ String.intercalate ", " (((List.range ((records.length + T - 1) / T)).map
              (fun t => (⟨chunkPath out ((records.length + T - 1) / T) (t + 1), keys,
                (chunkSlice records T t).map (rowFor keys)⟩ : CsvFile))).map
                  (fun f => f.path.name)),
        (List.range ((records.length + T - 1) / T)).map
          (fun t => ⟨chunkPath out ((records.length + T - 1) / T) (t + 1), keys,
            (chunkSlice records T t).map (rowFor keys)⟩)⟩ := by
  have hmap : ∀ k2, (List.range k2).map
        (fun t => (⟨chunkPath out k2 (1 + t), keys,
          (chunkSlice records T (1 + t - 1)).map (rowFor keys)⟩ : CsvFile))
      = (List.range k2).map
        (fun t => ⟨chunkPath out k2 (t + 1), keys,
          (chunkSlice records T t).map (rowFor keys)⟩) := by
    intro k2
    apply List.map_congr_left
    intro t ht
    have h1 : 1 + t = t + 1 := by omega
    have h2 : t + 1 - 1 = t := by omega
    rw [h1, h2]
  simp only [write_split_csv]
  rw [writeChunksLoop_clean fs records keys out T _ hfs, hmap]

/-- C1: with a threshold `0 < T < N` and no I/O failure, the split writer
produces exactly `ceil(N/T)` chunk files; the `i`-th (0-based) file is named
`{stem}_{i+1}{ext}`, carries the full header, and holds the rows of the
`i`-th contiguous slice of the records; every chunk but the last has exactly
`T` rows and the last has the remainder; and concatenating all chunk files'
data rows in chunk order reproduces the rows of the original records in
input order. -/
theorem split_partition_correct (fs : FS) (records : List FlatRecord) (keys : List String)
    (out : OutPath) (T : Nat) (hfs : ∀ p, fs p = none) (hT : 0 < T)
    (hTN : T < records.length) :
    (write_split_csv fs records keys out T).success = true ∧
    (write_split_csv fs records keys out T).num_files = (records.length + T - 1) / T ∧
    (write_split_csv fs records keys out T).files.length = (records.length + T - 1) / T ∧
    (∀ i, ∀ hi : i < (write_split_csv fs records keys out T).files.length,
      ((write_split_csv fs records keys out T).files.get ⟨i, hi⟩).path.name
          = out.stem ++ "_" ++ toString (i + 1) ++ out.ext ∧
      ((write_split_csv fs records keys out T).files.get ⟨i, hi⟩).header = keys ∧
      ((write_split_csv fs records keys out T).files.get ⟨i, hi⟩).rows
          = (chunkSlice records T i).map (rowFor keys) ∧
      (i + 1 < (records.length + T - 1) / T →
        ((write_split_csv fs records keys out T).files.get ⟨i, hi⟩).rows.length = T) ∧
      (i + 1 = (records.length + T - 1) / T →
        ((write_split_csv fs records keys out T).files.get ⟨i, hi⟩).rows.length
            = records.length - i * T)) ∧
    (write_split_csv fs records keys out T).files.flatMap (fun f => f.rows)
        = records.map (rowFor keys) := by
  have hN : 0 < records.length := by omega
  have hk2 : 2 ≤ (records.length + T - 1) / T := ceil_div_ge_two hT hTN
  rw [write_split_csv_clean fs records keys out T hfs]
  simp only [List.length_map, List.length_range]
  refine ⟨by trivial, by trivial, by trivial, ?_, ?_⟩
  · intro i hi
    have hget : ((List.range ((records.length + T - 1) / T)).map
          (fun t => (⟨chunkPath out ((records.length + T - 1) / T) (t + 1), keys,
            (chunkSlice records T t).map (rowFor keys)⟩ : CsvFile))).get
          ⟨i, by simpa using hi⟩
        = ⟨chunkPath out ((records.length + T - 1) / T) (i + 1), keys,
            (chunkSlice records T i).map (rowFor keys)⟩ := by
      rw [List.get_eq_getElem, List.getElem_map, List.getElem_range]
    rw [hget]
    refine ⟨?_, rfl, rfl, ?_, ?_⟩
    · simp only [chunkPath, if_pos (by omega : (records.length + T - 1) / T > 1)]
      simp [OutPath.name, String.append_assoc]
    · intro hlast
      simp only [List.length_map, chunkSlice, List.length_take, List.length_drop]
      have h1 : (i + 1) * T ≤ ((records.length + T - 1) / T - 1) * T :=
        Nat.mul_le_mul_right _ (by omega)
      have h2 : ((records.length + T - 1) / T - 1) * T < records.length :=
        ceil_pred_mul_lt hT hN
      have h3 : (i + 1) * T = i * T + T := Nat.succ_mul i T
      omega
    · intro hlast
      simp only [List.length_map, chunkSlice, List.length_take, List.length_drop]
      have h4 : records.length ≤ T * ((records.length + T - 1) / T) := le_ceil_mul hT
      have e1 : T * (i + 1) = T * i + T := Nat.mul_succ T i
      have e2 : T * i = i * T := Nat.mul_comm T i
      rw [← hlast] at h4
      omega
  · rw [List.flatMap_map]
    simp only []
    have : ∀ t ∈ List.range ((records.length + T - 1) / T),
        (⟨chunkPath out ((records.length + T - 1) / T) (t + 1), keys,
          (chunkSlice records T t).map (rowFor keys)⟩ : CsvFile).rows
        = (chunkSlice records T t).map (rowFor keys) := fun t ht => rfl
    rw [List.flatMap_congr this]
    rw [← List.map_flatMap]
    rw [join_chunkSlice T hT records.length records le_rfl]

/-- The single-file branch on a file system that accepts the write. -/
theorem writeSingle_clean (fs : FS) (frecs : List FlatRecord) (keys : List String)
    (out : OutPath) (hfs : fs out.full = none) :
    writeSingle fs frecs keys out
      = ⟨true, 1, "Created 1 CSV file with " ++ toString frecs.length ++ " rows",
          [⟨out, keys, frecs.map (rowFor keys)⟩]⟩ := by
  simp [writeSingle, hfs]

/-- C2: with no I/O failure and a positive threshold when present, the
converter writes more than one file exactly when the threshold is present
and smaller than the record count; otherwise it writes exactly one file at
the original output path, holding the header and one row per record in
input order, and reports one file and `N` total rows. -/
theorem single_or_split (fs : FS) (j : Json) (out : OutPath) (mr : Option Nat)
    (recs : List Json) (hrecs : normalizeRecords j = .ok recs)
    (hfs : ∀ p, fs p = none)
    (hmr : ∀ T, mr = some T → 0 < T) :
    (1 < (json_to_csv fs j out mr).files.length ↔ ∃ T, mr = some T ∧ T < recs.length) ∧
    ((∀ T, mr = some T → ¬ T < recs.length) →
      json_to_csv fs j out mr
        = ⟨true, 1, "Created 1 CSV file with " ++ toString recs.length ++ " rows",
            [⟨out, buildOrderedKeys (recs.map (fun r => flatten_json r "" "_")),
              (recs.map (fun r => flatten_json r "" "_")).map
                (rowFor (buildOrderedKeys (recs.map (fun r => flatten_json r "" "_"))))⟩]⟩) := by
  have hlen : (recs.map (fun r => flatten_json r "" "_")).length = recs.length :=
    List.length_map _ _
  simp only [json_to_csv, hrecs]
  cases mr with
  | none =>
      rw [writeSingle_clean fs _ _ out (hfs out.full)]
      constructor
      · simp
      · intro h
        rw [hlen]
  | some T =>
      dsimp only []
      have hT : 0 < T := hmr T rfl
      by_cases hc : T < recs.length
      · have hcond : 0 < T ∧ T < (recs.map (fun r => flatten_json r "" "_")).length := by
          rw [hlen]; exact ⟨hT, hc⟩
        rw [if_pos hcond]
        rw [write_split_csv_clean fs _ _ out T (hfs)]
        have hc2 : T < (List.map (fun r => flatten_json r "" "_") recs).length := by
          rw [hlen]; exact hc
        constructor
        · simp only [List.length_map, List.length_range]
          constructor
          · intro _; exact ⟨T, rfl, hc⟩
          · intro _
            have := ceil_div_ge_two hT hc
            omega
        · intro h
          exact absurd hc (h T rfl)
      · have hcond : ¬ (0 < T ∧ T < (recs.map (fun r => flatten_json r "" "_")).length) := by
          rw [hlen]; exact fun hh => hc hh.2
        rw [if_neg hcond]
        rw [writeSingle_clean fs _ _ out (hfs out.full)]
        constructor
        · simp only [List.length_singleton]
          constructor
          · intro hgt; omega
          · rintro ⟨T2, hT2, hlt⟩
            have hTT : T = T2 := Option.some.inj hT2
            subst hTT
            exact absurd hlt hc
        · intro h
          rw [hlen]

theorem writeSingle_files_shape (fs : FS) (frecs : List FlatRecord) (keys : List String)
    (out : OutPath) :
    ∀ f ∈ (writeSingle fs frecs keys out).files,
      f.header = keys ∧ f.rows = frecs.map (rowFor keys) := by
  intro f hf
  simp only [writeSingle] at hf
  cases hfs : fs out.full with
  | some e => rw [hfs] at hf; simp at hf
  | none =>
      rw [hfs] at hf
      simp only [List.mem_singleton] at hf
      subst hf
      exact ⟨rfl, rfl⟩

theorem write_split_csv_files_shape (fs : FS) (records : List FlatRecord) (keys : List String)
    (out : OutPath) (T : Nat) :
    ∀ f ∈ (write_split_csv fs records keys out T).files,
      f.header = keys ∧ ∃ j, f.rows = (chunkSlice records T j).map (rowFor keys) := by
  intro f hf
  simp only [write_split_csv] at hf
  cases hloop : writeChunksLoop fs records keys out T ((records.length + T - 1) / T) 1
      ((records.length + T - 1) / T) with
  | mk files err =>
      rw [hloop] at hf
      have hmem : f ∈ files := by
        cases err with
        | some e => simpa using hf
        | none => simpa using hf
      obtain ⟨i, _, _, hform⟩ :=
        writeChunksLoop_shape fs records keys out T ((records.length + T - 1) / T)
          ((records.length + T - 1) / T) 1 f (by rw [hloop]; exact hmem)
      subst hform
      exact ⟨rfl, ⟨i - 1, rfl⟩⟩

/-- C4: in both the single-file and the split path, every file carries the
full ordered key list as header, and every data row has exactly
`len(ordered_keys)` fields (missing keys having been filled with the empty
string by `record.get(key, ...)`). -/
theorem row_completeness (fs : FS) (j : Json) (out : OutPath) (mr : Option Nat)
    (recs : List Json) (hrecs : normalizeRecords j = .ok recs) :
    ∀ f ∈ (json_to_csv fs j out mr).files,
      f.header = buildOrderedKeys (recs.map (fun r => flatten_json r "" "_")) ∧
      ∀ row ∈ f.rows,
        row.length = (buildOrderedKeys (recs.map (fun r => flatten_json r "" "_"))).length := by
  intro f hf
  simp only [json_to_csv, hrecs] at hf
  have hrow : ∀ (rs : List FlatRecord) (keys : List String),
      f.rows = rs.map (rowFor keys) → ∀ row ∈ f.rows, row.length = keys.length := by
    intro rs keys hr row hrow2
    rw [hr] at hrow2
    obtain ⟨r, _, hrr⟩ := List.mem_map.mp hrow2
    rw [← hrr]
    exact rowFor_length keys r
  cases mr with
  | none =>
      obtain ⟨h1, h2⟩ := writeSingle_files_shape fs _ _ out f hf
      exact ⟨h1, hrow _ _ h2⟩
  | some T =>
      dsimp only [] at hf
      by_cases hcond : 0 < T ∧ T < (recs.map (fun r => flatten_json r "" "_")).length
      · rw [if_pos hcond] at hf
        obtain ⟨h1, jj, h2⟩ := write_split_csv_files_shape fs _ _ out T f hf
        exact ⟨h1, hrow _ _ h2⟩
      · rw [if_neg hcond] at hf
        obtain ⟨h1, h2⟩ := writeSingle_files_shape fs _ _ out f hf
        exact ⟨h1, hrow _ _ h2⟩

/-- C4 witness: a two-record object list with differing keys. -/
theorem row_completeness_witness :
    normalizeRecords (.arr [.obj [("a", .num 1)], .obj [("b", .num 2)]])
        = .ok [.obj [("a", .num 1)], .obj [("b", .num 2)]] ∧
    ∀ f ∈ (json_to_csv (fun _ => none)
        (.arr [.obj [("a", .num 1)], .obj [("b", .num 2)]]) ⟨"d", "out", ".csv"⟩ none).files,
      f.header = buildOrderedKeys
          (([Json.obj [("a", .num 1)], Json.obj [("b", .num 2)]] : List Json).map
            (fun r => flatten_json r "" "_")) ∧
      ∀ row ∈ f.rows,
        row.length = (buildOrderedKeys
          (([Json.obj [("a", .num 1)], Json.obj [("b", .num 2)]] : List Json).map
            (fun r => flatten_json r "" "_"))).length :=
  ⟨rfl, row_completeness (fun _ => none) _ ⟨"d", "out", ".csv"⟩ none _ rfl⟩

theorem writeSingle_disj (fs : FS) (frecs : List FlatRecord) (keys : List String)
    (out : OutPath) :
    (writeSingle fs frecs keys out).success = true ∨
    ((writeSingle fs frecs keys out).success = false ∧
      (writeSingle fs frecs keys out).num_files = 0 ∧
      ∃ p e, fs p = some e ∧ (writeSingle fs frecs keys out).message = e) := by
  simp only [writeSingle]
  cases hfs : fs out.full with
  | some e => exact Or.inr ⟨rfl, rfl, out.full, e, hfs, rfl⟩
  | none => exact Or.inl rfl

theorem write_split_csv_disj (fs : FS) (records : List FlatRecord) (keys : List String)
    (out : OutPath) (T : Nat) :
    (write_split_csv fs records keys out T).success = true ∨
    ((write_split_csv fs records keys out T).success = false ∧
      (write_split_csv fs records keys out T).num_files = 0 ∧
      ∃ p e, fs p = some e ∧ (write_split_csv fs records keys out T).message = e) := by
  simp only [write_split_csv]
  cases hloop : writeChunksLoop fs records keys out T ((records.length + T - 1) / T) 1
      ((records.length + T - 1) / T) with
  | mk files err =>
      cases err with
      | some e =>
          obtain ⟨p, hp⟩ := writeChunksLoop_fail fs records keys out T
            ((records.length + T - 1) / T) ((records.length + T - 1) / T) 1 files e hloop
          exact Or.inr ⟨rfl, rfl, p, e, hp, rfl⟩
      | none => exact Or.inl rfl

/-- C9: `json_to_csv` never lets an error escape: for every input, output
path, threshold and file-system behavior the result is either a success, or
a returned failure triple carrying `success = false`, file count `0` and the
error's message, the error being one of exactly the three causes — a
top-level value that is neither dict nor list, an empty normalized record
list, or an I/O failure raised while opening an output file. -/
theorem errors_returned_not_thrown (fs : FS) (j : Json) (out : OutPath) (mr : Option Nat) :
    ((json_to_csv fs j out mr).success = true ∨
      ((json_to_csv fs j out mr).success = false ∧
        (json_to_csv fs j out mr).num_files = 0 ∧
        ((j.isObj = false ∧ j.isArr = false ∧
            (json_to_csv fs j out mr).message = ConvError.invalidTopLevel.message) ∨
          (j = .arr [] ∧ (json_to_csv fs j out mr).message = ConvError.emptyInput.message) ∨
          (∃ p e, fs p = some e ∧ (json_to_csv fs j out mr).message = e)))) ∧
    (j.isObj = false ∧ j.isArr = false →
      json_to_csv fs j out mr = ⟨false, 0, ConvError.invalidTopLevel.message, []⟩) ∧
    (j = .arr [] →
      json_to_csv fs j out mr = ⟨false, 0, ConvError.emptyInput.message, []⟩) := by
  refine ⟨?_, ?_, ?_⟩
  case refine_2 =>
    rintro ⟨h1, h2⟩
    cases j <;> simp_all [json_to_csv, normalizeRecords, normalizeTop, Json.isObj, Json.isArr,
      ConvError.message]
  case refine_3 =>
    rintro rfl
    rfl
  have hwrap : ∀ (res : ConvResult),
      (res.success = true ∨ (res.success = false ∧ res.num_files = 0 ∧
        ∃ p e, fs p = some e ∧ res.message = e)) →
      (res.success = true ∨
        (res.success = false ∧ res.num_files = 0 ∧
          ((j.isObj = false ∧ j.isArr = false ∧ res.message = ConvError.invalidTopLevel.message) ∨
            (j = .arr [] ∧ res.message = ConvError.emptyInput.message) ∨
            (∃ p e, fs p = some e ∧ res.message = e)))) := by
    intro res h
    rcases h with h | ⟨h1, h2, h3⟩
    · exact Or.inl h
    · exact Or.inr ⟨h1, h2, Or.inr (Or.inr h3)⟩
  cases hn : normalizeRecords j with
  | error e =>
      simp only [json_to_csv, hn]
      right
      refine ⟨by trivial, by trivial, ?_⟩
      cases j with
      | obj pairs =>
          rw [show normalizeRecords (Json.obj pairs) = .ok [Json.obj pairs] from rfl] at hn
          cases hn
      | arr elems =>
          cases elems with
          | nil =>
              have he : ConvError.emptyInput = e := by
                rw [show normalizeRecords (Json.arr []) = .error .emptyInput from rfl] at hn
                exact Except.error.inj hn
              exact Or.inr (Or.inl ⟨rfl, by rw [← he]⟩)
          | cons a as =>
              rw [show normalizeRecords (Json.arr (a :: as)) = .ok (a :: as) from rfl] at hn
              cases hn
      | null =>
          have he : ConvError.invalidTopLevel = e := by
            rw [show normalizeRecords Json.null = .error .invalidTopLevel from rfl] at hn
            exact Except.error.inj hn
          exact Or.inl ⟨rfl, rfl, by rw [← he]⟩
      | bool b =>
          have he : ConvError.invalidTopLevel = e := by
            rw [show normalizeRecords (Json.bool b) = .error .invalidTopLevel from rfl] at hn
            exact Except.error.inj hn
          exact Or.inl ⟨rfl, rfl, by rw [← he]⟩
      | num m =>
          have he : ConvError.invalidTopLevel = e := by
            rw [show normalizeRecords (Json.num m) = .error .invalidTopLevel from rfl] at hn
            exact Except.error.inj hn
          exact Or.inl ⟨rfl, rfl, by rw [← he]⟩
      | str ss =>
          have he : ConvError.invalidTopLevel = e := by
            rw [show normalizeRecords (Json.str ss) = .error .invalidTopLevel from rfl] at hn
            exact Except.error.inj hn
          exact Or.inl ⟨rfl, rfl, by rw [← he]⟩
  | ok recs =>
      simp only [json_to_csv, hn]
      cases mr with
      | none => exact hwrap _ (writeSingle_disj fs _ _ out)
      | some T =>
          dsimp only []
          by_cases hcond : 0 < T ∧ T < (recs.map (fun r => flatten_json r "" "_")).length
          · rw [if_pos hcond]
            exact hwrap _ (write_split_csv_disj fs _ _ out T)
          · rw [if_neg hcond]
            exact hwrap _ (writeSingle_disj fs _ _ out)

/-- C9 witness: the bare scalar `42` is reported as a returned failure with
file count 0 and the invalid-top-level message. -/
theorem errors_returned_not_thrown_witness :
    ((Json.num 42).isObj = false ∧ (Json.num 42).isArr = false) ∧
    json_to_csv (fun _ => none) (.num 42) ⟨"d", "out", ".csv"⟩ none
      = ⟨false, 0, ConvError.invalidTopLevel.message, []⟩ :=
  ⟨⟨rfl, rfl⟩,
    (errors_returned_not_thrown (fun _ => none) (.num 42) ⟨"d", "out", ".csv"⟩ none).2.1
      ⟨rfl, rfl⟩⟩

/-- A scalar flattened at the empty path prefix yields the empty record. -/
theorem flatten_scalar_empty_prefix (x : Json) (hsc : x.isScalar = true) (sep : String) :
    flatten_json x "" sep = [] := by
  cases x with
  | arr elems => simp [Json.isScalar, Json.isContainer] at hsc
  | obj pairs => simp [Json.isScalar, Json.isContainer] at hsc
  | null => rw [flatten_json.eq_def]; rfl
  | bool b => rw [flatten_json.eq_def]; rfl
  | num m => rw [flatten_json.eq_def]; rfl
  | str s2 => rw [flatten_json.eq_def]; rfl

theorem buildOrderedKeys_replicate_nil (n : Nat) :
    buildOrderedKeys (List.replicate n ([] : FlatRecord)) = [] := by
  have h : ∀ (m : Nat) (acc : List String),
      (List.replicate m ([] : FlatRecord)).foldl
        (fun acc r => updateKeys acc (r.map (fun p => p.1))) acc = acc := by
    intro m
    induction m with
    | zero => intro acc; rfl
    | succ m ih =>
        intro acc
        rw [List.replicate_succ, List.foldl_cons]
        exact ih acc
  exact h n []

/-- C10: a non-empty top-level array of scalars converts successfully: every
element flattens to the empty record, the ordered key set is empty, and a
single file is reported with one file, `N` total rows, and one zero-field
row per element. -/
theorem scalar_array_converts (l : List Json) (fs : FS) (out : OutPath)
    (hne : l ≠ []) (hsc : ∀ x ∈ l, x.isScalar = true) (hfs : fs out.full = none) :
    json_to_csv fs (.arr l) out none
      = ⟨true, 1, "Created 1 CSV file with " ++ toString l.length ++ " rows",
          [⟨out, [], List.replicate l.length []⟩]⟩ ∧
    buildOrderedKeys (l.map (fun r => flatten_json r "" "_")) = [] := by
  have hflat : l.map (fun r => flatten_json r "" "_") = List.replicate l.length [] := by
    rw [show List.replicate l.length ([] : FlatRecord)
        = l.map (fun _ => ([] : FlatRecord)) from (List.map_const l []).symm]
    apply List.map_congr_left
    intro x hx
    exact flatten_scalar_empty_prefix x (hsc x hx) "_"
  have hkeys : buildOrderedKeys (l.map (fun r => flatten_json r "" "_")) = [] := by
    rw [hflat]
    exact buildOrderedKeys_replicate_nil _
  refine ⟨?_, hkeys⟩
  have hnorm : normalizeRecords (.arr l) = .ok l := by
    match l with
    | [] => exact absurd rfl hne
    | a :: as => rfl
  simp only [json_to_csv, hnorm]
  rw [writeSingle_clean fs _ _ out hfs]
  rw [hkeys, hflat]
  have hrows : (List.replicate l.length ([] : FlatRecord)).map (rowFor [])
      = List.replicate l.length [] := by
    rw [List.map_replicate]
    rfl
  rw [hrows, List.length_replicate]

/-- C10 witness: the array `[1, 2, 3]`. -/
theorem scalar_array_converts_witness :
    ([Json.num 1, Json.num 2, Json.num 3] : List Json) ≠ [] ∧
    json_to_csv (fun _ => none) (.arr [Json.num 1, Json.num 2, Json.num 3])
        ⟨"d", "out", ".csv"⟩ none
      = ⟨true, 1,
          "Created 1 CSV file with "
            ++ toString ([Json.num 1, Json.num 2, Json.num 3] : List Json).length ++ " rows",
          [⟨⟨"d", "out", ".csv"⟩, [],
            List.replicate ([Json.num 1, Json.num 2, Json.num 3] : List Json).length []⟩]⟩ ∧
    buildOrderedKeys (([Json.num 1, Json.num 2, Json.num 3] : List Json).map
        (fun r => flatten_json r "" "_")) = [] := by
  have h := scalar_array_converts [Json.num 1, Json.num 2, Json.num 3] (fun _ => none)
    ⟨"d", "out", ".csv"⟩ (by simp) (by decide) rfl
  exact ⟨by simp, h.1, h.2⟩

/-- C1 witness: five records with threshold 2 give three chunk files whose
data rows concatenate back to the original rows. -/
theorem split_partition_correct_witness :
    0 < 2 ∧ 2 < (List.replicate 5 ([] : FlatRecord)).length ∧
    (write_split_csv (fun _ => none) (List.replicate 5 ([] : FlatRecord)) ["k"]
        ⟨"d", "out", ".csv"⟩ 2).files.flatMap (fun f => f.rows)
      = (List.replicate 5 ([] : FlatRecord)).map (rowFor ["k"]) :=
  ⟨by decide, by decide,
    (split_partition_correct (fun _ => none) (List.replicate 5 ([] : FlatRecord)) ["k"]
      ⟨"d", "out", ".csv"⟩ 2 (fun p => rfl) (by decide) (by decide)).2.2.2.2⟩

/-- C2 witness: two records, threshold absent — one file at the original
path with a header and both rows, reporting one file and two rows. -/
theorem single_or_split_witness :
    json_to_csv (fun _ => none) (.arr [.obj [("a", .num 1)], .obj [("a", .num 2)]])
        ⟨"d", "out", ".csv"⟩ none
      = ⟨true, 1,
          "Created 1 CSV file with "
            ++ toString ([Json.obj [("a", .num 1)], Json.obj [("a", .num 2)]] : List Json).length
            ++ " rows",
          [⟨⟨"d", "out", ".csv"⟩,
            buildOrderedKeys (([Json.obj [("a", .num 1)], Json.obj [("a", .num 2)]] : List Json).map
              (fun r => flatten_json r "" "_")),
            (([Json.obj [("a", .num 1)], Json.obj [("a", .num 2)]] : List Json).map
              (fun r => flatten_json r "" "_")).map
                (rowFor (buildOrderedKeys
                  (([Json.obj [("a", .num 1)], Json.obj [("a", .num 2)]] : List Json).map
                    (fun r => flatten_json r "" "_"))))⟩]⟩ :=
  (single_or_split (fun _ => none) (.arr [.obj [("a", .num 1)], .obj [("a", .num 2)]])
    ⟨"d", "out", ".csv"⟩ none [.obj [("a", .num 1)], .obj [("a", .num 2)]] rfl (fun _ => rfl)
    (fun _ h => nomatch h)).2 (fun _ h => nomatch h)

end JsonToCsv
